import Mathlib

/-!
Verification of the core sampling layer of the `rand` crate (src/lib.rs).

The crate root delegates several operations to collaborator modules
(`distributions::uniform`, `distributions::Bernoulli`, `rngs::EntropyRng`)
whose sources are not part of this unit; those collaborators are modelled
from the specification, as marked in the doc comments. A bit-source is
modelled as a finite list of raw natural-number outputs, each reduced
modulo the source's native width on draw; running out of supplied raws is
the `exhausted` outcome, an artifact of the finite model.
-/

namespace Rand

/-- Outcome of an operation run against a finite list of raw draws:
a value together with the remaining raws, a fatal abort (Rust `panic!`)
together with the raws remaining at the abort, or exhaustion of the
supplied raw list. -/
inductive GenResult (α : Type) where
  | ok : α → List Nat → GenResult α
  | panic : List Nat → GenResult α
  | exhausted : GenResult α
deriving DecidableEq, Repr

/-- Modelled from the spec: the span `high - low` of a half-open integer
range request (`distributions::uniform` is not part of this unit). -/
def span (low high : Int) : Nat := (high - low).toNat

/-- Modelled from the spec: the acceptance zone, the largest multiple of
the span that fits within the bit-source's native output width `2^w`
(`distributions::uniform` is not part of this unit). -/
def zone (w : Nat) (low high : Int) : Nat := 2 ^ w - 2 ^ w % span low high

/-- Modelled from the spec: the redraw loop of the bias-elimination
algorithm of `UniformSampler::sample_single` — draw raw values, discard
any outside the acceptance zone, reduce an accepted one modulo the span
and add `low`. -/
def sampleLoop (w : Nat) (low high : Int) : List Nat → GenResult Int
  | [] => .exhausted
  | r :: rest =>
      if r % 2 ^ w < zone w low high then
        .ok (low + ((r % 2 ^ w % span low high : Nat) : Int)) rest
      else sampleLoop w low high rest

/-- Modelled from the spec: `Rng::gen_range` for a discrete (integer) type
of native width `w`, as delegated to `UniformSampler::sample_single`,
whose source is not part of this unit: reject the request fatally when
`low ≥ high` before consuming any raw output, otherwise run the
bias-elimination redraw loop. -/
def sampleSingle (w : Nat) (low high : Int) (raws : List Nat) : GenResult Int :=
  if high ≤ low then .panic raws
  else sampleLoop w low high raws

/-- Modelled from the spec: `Rng::gen_range` for a floating-point type, as
delegated to the uniform float sampler whose source is not part of this
unit: scale 53 uniformly random mantissa bits into `[0,1)` and affinely
map into `[low, high)`; modelled in exact rational arithmetic. -/
def sampleSingleFloat (low high : Rat) (raws : List Nat) : GenResult Rat :=
  if high ≤ low then .panic raws
  else match raws with
    | [] => .exhausted
    | r :: rest =>
        .ok (low + ((r % 2 ^ 53 : Nat) : Rat) / 2 ^ 53 * (high - low)) rest

/-- Modelled from the spec: `Rng::gen_bool p` via `Bernoulli::new p`,
whose source is not part of this unit: reject `p` outside `[0,1]` fatally
before consuming any raw output, otherwise draw one 64-bit value `v` and
return whether `v < p·2^64`; the probability argument is modelled as an
exact rational. -/
def genBool (p : Rat) (raws : List Nat) : GenResult Bool :=
  if p < 0 ∨ 1 < p then .panic raws
  else match raws with
    | [] => .exhausted
    | r :: rest => .ok (decide (((r % 2 ^ 64 : Nat) : Rat) < p * 2 ^ 64)) rest

/-- Modelled from the spec: `Rng::gen_ratio n d` via
`Bernoulli::from_ratio`, whose source is not part of this unit: reject
`d = 0` or `n > d` fatally before consuming any raw output, otherwise
perform the exact-rational trial — draw `u` uniformly from `[0, d)` by
the 32-bit bias-elimination sampler and return whether `u < n`. -/
def ratioTrial (n d : Nat) (raws : List Nat) : GenResult Bool :=
  if d = 0 ∨ d < n then .panic raws
  else match sampleSingle 32 0 (d : Int) raws with
    | .ok u rest => .ok (decide (u < (n : Int))) rest
    | .panic rest => .panic rest
    | .exhausted => .exhausted

/-- The `k` little-endian base-256 digits (bytes) of `w`. -/
def bytesLE : Nat → Nat → List Nat
  | 0, _ => []
  | k + 1, w => w % 256 :: bytesLE k (w / 256)

/-- The integer value of a little-endian byte list. -/
def valLE : List Nat → Nat
  | [] => 0
  | b :: l => b + 256 * valLE l

/-- The integer value of a big-endian byte list. -/
def valBE (l : List Nat) : Nat := valLE l.reverse

/-- Reverse the `k`-byte representation of a word (Rust `swap_bytes`). -/
def swapBytes (k w : Nat) : Nat := valBE (bytesLE k w)

/-- `x.to_le()` on one `k`-byte element of a host with byte order `be`
(`be = true` is big-endian): the identity on little-endian hosts, a byte
swap on big-endian hosts (`AsByteSliceMut::to_le`, src/lib.rs lines
710-714). -/
def toLEWord (be : Bool) (k w : Nat) : Nat := if be then swapBytes k w else w

/-- Interpret a `k`-byte memory chunk as an integer in the byte order of
a host with byte order `be`. -/
def hostVal (be : Bool) (c : List Nat) : Nat := if be then valBE c else valLE c

/-- The `k`-byte memory representation of a word on a host with byte
order `be`. -/
def hostBytes (be : Bool) (k w : Nat) : List Nat :=
  if be then (bytesLE k w).reverse else bytesLE k w

/-- Decode a byte buffer as `n` elements of a `k`-byte integer type in
the host's byte order. -/
def wordsOfHost (be : Bool) (k n : Nat) (bytes : List Nat) : List Nat :=
  (List.range n).map (fun i => hostVal be ((bytes.drop (i * k)).take k))

/-- `Rng::fill` (src/lib.rs lines 536-539) on a destination of `n`
elements of a `k`-byte integer type, against a bit-source modelled as a
byte stream (`raws`, each entry reduced modulo 256): fill the
`n * k`-byte slice view of the destination with the next `n * k` source
bytes, interpret them in the host's byte order, then apply `to_le` to
every element; returns the resulting logical element values and the
remaining stream. -/
def fill (be : Bool) (k n : Nat) (raws : List Nat) : List Nat × List Nat :=
  ((wordsOfHost be k n ((raws.take (n * k)).map (· % 256))).map (toLEWord be k),
   raws.drop (n * k))

/-- `Rng::fill` on a raw `u8` destination of `n` bytes: the `[u8]`
implementation of `AsByteSliceMut` (src/lib.rs lines 682-688) returns the
buffer itself as the byte-slice view and its `to_le` is a no-op, so the
host byte order `be` is never consulted. -/
def fillU8 (be : Bool) (n : Nat) (raws : List Nat) : List Nat × List Nat :=
  ((raws.take n).map (· % 256), raws.drop n)

/-- `Rng::try_fill` (src/lib.rs lines 572-576) on a destination holding
`dest0` (elements of a `k`-byte type), where the underlying fallible
`try_fill_bytes` call wrote the byte prefix `written` into the slice view
and finished with `res`: on error the `?` operator propagates the error
before `dest.to_le()` runs, so the partially overwritten buffer is left
decoded in the host's byte order; on success every element is normalized
by `to_le`. -/
def tryFill {ε : Type} (be : Bool) (k : Nat) (dest0 : List Nat)
    (written : List Nat) (res : Except ε Unit) : List Nat × Except ε Unit :=
  let b0 := (dest0.map (hostBytes be k)).flatten
  let b1 := written.map (· % 256) ++ b0.drop written.length
  match res with
  | .error e => (wordsOfHost be k dest0.length b1, .error e)
  | .ok _ => ((wordsOfHost be k dest0.length b1).map (toLEWord be k), .ok ())

/-- The fixed-size-array destination lengths for which src/lib.rs
implements `AsByteSliceMut`: the macro invocations
`impl_as_byte_slice_arrays!(32, N,...)` (lines 731-761) generate
implementations for lengths 0 through 32, and
`impl_as_byte_slice_arrays!(!div 4096, N,...)` (line 762) for the seven
halvings 4096, 2048, 1024, 512, 256, 128, 64. -/
def supportedArrayLengths : List Nat :=
  List.range 33 ++ [64, 128, 256, 512, 1024, 2048, 4096]

/-- Whether an `n`-element fixed-size array is a valid `Rng::fill`
destination, i.e. whether src/lib.rs provides `AsByteSliceMut` for
`[T; n]`. -/
def arrayLenSupported (n : Nat) : Bool := decide (n ∈ supportedArrayLengths)

/-- `FromEntropy::from_entropy` (src/lib.rs lines 827-833): one call to
the fallible seeding primitive `SeedableRng::from_rng` over the primary
entropy source, modelled as an attempt-indexed oracle `fromRng`; the
result of attempt 0 is unwrapped, any reported failure becoming a fatal
abort (`none`) since no error channel is exposed. -/
def fromEntropy {R ε : Type} (fromRng : Nat → Except ε R) : Option R :=
  match fromRng 0 with
  | .ok r => some r
  | .error _ => none

lemma span_pos {low high : Int} (h : low < high) : 0 < span low high := by
  unfold span; omega

lemma sampleLoop_ok_bounds {w : Nat} {low high : Int} (hlt : low < high) :
    ∀ {raws rest : List Nat} {v : Int},
      sampleLoop w low high raws = .ok v rest → low ≤ v ∧ v < high := by
  intro raws
  induction raws with
  | nil => intro rest v h; simp [sampleLoop] at h
  | cons r t ih =>
      intro rest v h
      rw [sampleLoop] at h
      by_cases hz : r % 2 ^ w < zone w low high
      · rw [if_pos hz] at h
        injection h with h1 h2
        subst h1
        have hs : 0 < span low high := span_pos hlt
        have hc : r % 2 ^ w % span low high < span low high := Nat.mod_lt _ hs
        unfold span at hc ⊢
        omega
      · rw [if_neg hz] at h
        exact ih h

lemma sampleSingle_ok_bounds {w : Nat} {low high : Int} {raws rest : List Nat}
    {v : Int} (h : sampleSingle w low high raws = .ok v rest) :
    low ≤ v ∧ v < high := by
  unfold sampleSingle at h
  by_cases hle : high ≤ low
  · rw [if_pos hle] at h; exact absurd h (by simp)
  · rw [if_neg hle] at h
    exact sampleLoop_ok_bounds (by omega) h

/-- C2: every successful `Rng::gen_range(low, high)` call returns a value
`v` with `low ≤ v < high`, for integer types (the bias-elimination
sampler at any native width) and floating-point types (the mantissa-bit
affine sampler, modelled in exact rationals) alike. -/
theorem gen_range_postcondition :
    (∀ (w : Nat) (low high : Int) (raws rest : List Nat) (v : Int),
        sampleSingle w low high raws = .ok v rest → low ≤ v ∧ v < high) ∧
    (∀ (low high : Rat) (raws rest : List Nat) (v : Rat),
        sampleSingleFloat low high raws = .ok v rest → low ≤ v ∧ v < high) := by
  constructor
  · intro w low high raws rest v h
    exact sampleSingle_ok_bounds h
  · intro low high raws rest v h
    unfold sampleSingleFloat at h
    by_cases hle : high ≤ low
    · rw [if_pos hle] at h; exact absurd h (by simp)
    · rw [if_neg hle] at h
      cases raws with
      | nil => exact absurd h (by simp)
      | cons r t =>
          injection h with h1 h2
          have hlt : low < high := lt_of_not_le hle
          have hm : ((r % 2 ^ 53 : Nat) : Rat) < 2 ^ 53 := by
            have : r % 2 ^ 53 < 2 ^ 53 := Nat.mod_lt _ (by positivity)
            calc ((r % 2 ^ 53 : Nat) : Rat) < ((2 ^ 53 : Nat) : Rat) := by
                  exact_mod_cast this
              _ = 2 ^ 53 := by push_cast; ring
          have hm0 : (0 : Rat) ≤ ((r % 2 ^ 53 : Nat) : Rat) := Nat.cast_nonneg _
          have hx0 : (0 : Rat) ≤ ((r % 2 ^ 53 : Nat) : Rat) / 2 ^ 53 := by positivity
          have hx1 : ((r % 2 ^ 53 : Nat) : Rat) / 2 ^ 53 < 1 := by
            rw [div_lt_one (by positivity)]; exact hm
          constructor
          · rw [← h1]
            have := mul_nonneg hx0 (by linarith : (0 : Rat) ≤ high - low)
            linarith
          · rw [← h1]
            have := (mul_lt_iff_lt_one_left (by linarith : (0 : Rat) < high - low)).mpr hx1
            linarith

/-- Witness for `gen_range_postcondition` at concrete inputs. -/
theorem gen_range_postcondition_witness :
    (((0 : Int) ≤ 0 ∧ (0 : Int) < 2) ∧ ((0 : Rat) ≤ 0 ∧ (0 : Rat) < 1)) :=
  ⟨gen_range_postcondition.1 4 0 2 [0] [] 0 (by decide),
   gen_range_postcondition.2 0 1 [0] [] 0 (by simp [sampleSingleFloat])⟩

/-- C3: precondition violations abort fatally before any bit-source
output is consumed: `gen_range` with `low ≥ high`, `gen_bool` with `p`
outside `[0, 1]`, and `gen_ratio` with a zero denominator or
`numerator > denominator` each return `panic` with the raw stream
untouched. -/
theorem preconditions_fail_fast :
    ∀ (w : Nat) (low high : Int) (p : Rat) (n d : Nat) (raws : List Nat),
      (high ≤ low → sampleSingle w low high raws = .panic raws) ∧
      ((p < 0 ∨ 1 < p) → genBool p raws = .panic raws) ∧
      ((d = 0 ∨ d < n) → ratioTrial n d raws = .panic raws) := by
  intro w low high p n d raws
  refine ⟨fun h => ?_, fun h => ?_, fun h => ?_⟩
  · rw [sampleSingle, if_pos h]
  · rw [genBool.eq_def, if_pos h]
  · rw [ratioTrial.eq_def, if_pos h]

/-- Witness for `preconditions_fail_fast` at the spec's concrete inputs
`range-sample(5, -2)`, a probability of 2, and a 5/3 ratio. -/
theorem preconditions_fail_fast_witness :
    sampleSingle 32 5 (-2) [7] = .panic [7] ∧
    genBool 2 [7] = .panic [7] ∧
    ratioTrial 5 3 [7] = .panic [7] := by
  have h := preconditions_fail_fast 32 5 (-2) 2 5 3 [7]
  exact ⟨h.1 (by decide), h.2.1 (Or.inr (by norm_num)), h.2.2 (Or.inr (by decide))⟩

/-- C6: the probability endpoints of `Rng::gen_bool` are deterministic —
every successful `gen_bool(0.0)` call returns `false` and every
successful `gen_bool(1.0)` call returns `true`, whatever the bit-source
produces. -/
theorem gen_bool_endpoints :
    ∀ (raws rest : List Nat) (b : Bool),
      (genBool 0 raws = .ok b rest → b = false) ∧
      (genBool 1 raws = .ok b rest → b = true) := by
  intro raws rest b
  constructor
  · intro h
    cases raws with
    | nil =>
        norm_num [genBool] at h
        exact absurd h (by simp)
    | cons r t =>
        simp only [genBool, if_neg (by norm_num : ¬((0 : Rat) < 0 ∨ (1 : Rat) < 0))] at h
        injection h with h1 h2
        rw [← h1, decide_eq_false_iff_not]
        simp
  · intro h
    cases raws with
    | nil =>
        norm_num [genBool] at h
        exact absurd h (by simp)
    | cons r t =>
        simp only [genBool, if_neg (by norm_num : ¬((1 : Rat) < 0 ∨ (1 : Rat) < 1))] at h
        injection h with h1 h2
        rw [← h1, decide_eq_true_iff]
        have hlt : r % 2 ^ 64 < 2 ^ 64 := Nat.mod_lt _ (by positivity)
        calc ((r % 2 ^ 64 : Nat) : Rat) < ((2 ^ 64 : Nat) : Rat) := by exact_mod_cast hlt
          _ = 1 * 2 ^ 64 := by push_cast; ring

/-- Witness for `gen_bool_endpoints` at a concrete draw. -/
theorem gen_bool_endpoints_witness : false = false ∧ true = true :=
  ⟨(gen_bool_endpoints [5] [] false).1 (by norm_num [genBool]),
   (gen_bool_endpoints [5] [] true).2 (by norm_num [genBool])⟩

/-- C5: for every bit-source and denominator `d > 0`, every successful
`Rng::gen_ratio` call returns `true` when `numerator = d` and `false`
when `numerator = 0`. -/
theorem gen_ratio_endpoints :
    ∀ (d : Nat) (raws rest : List Nat) (b : Bool), 0 < d →
      (ratioTrial d d raws = .ok b rest → b = true) ∧
      (ratioTrial 0 d raws = .ok b rest → b = false) := by
  intro d raws rest b hd
  constructor
  · intro h
    rw [ratioTrial.eq_def, if_neg (by omega)] at h
    cases hs : sampleSingle 32 0 (d : Int) raws with
    | ok u rest' =>
        rw [hs] at h
        injection h with h1 h2
        have hb := sampleSingle_ok_bounds hs
        rw [← h1, decide_eq_true_iff]
        exact hb.2
    | panic rest' => rw [hs] at h; exact absurd h (by simp)
    | exhausted => rw [hs] at h; exact absurd h (by simp)
  · intro h
    rw [ratioTrial.eq_def, if_neg (by omega)] at h
    cases hs : sampleSingle 32 0 (d : Int) raws with
    | ok u rest' =>
        rw [hs] at h
        injection h with h1 h2
        have hb := sampleSingle_ok_bounds hs
        rw [← h1, decide_eq_false_iff_not]
        omega
    | panic rest' => rw [hs] at h; exact absurd h (by simp)
    | exhausted => rw [hs] at h; exact absurd h (by simp)

/-- Witness for `gen_ratio_endpoints` with denominator 2 and one draw. -/
theorem gen_ratio_endpoints_witness : true = true ∧ false = false :=
  ⟨(gen_ratio_endpoints 2 [0] [] true (by decide)).1 (by decide),
   (gen_ratio_endpoints 2 [0] [] false (by decide)).2 (by decide)⟩

/-- C7: `Rng::fill` and `Rng::try_fill` on a zero-length destination
consume no bit-source output: the byte-slice view is empty, the raw
stream is returned untouched, and the resulting buffer is still empty. -/
theorem fill_zero_length :
    ∀ (be : Bool) (k : Nat) (raws : List Nat),
      fill be k 0 raws = ([], raws) ∧
      fillU8 be 0 raws = ([], raws) ∧
      tryFill be k ([] : List Nat) [] (Except.ok () : Except Unit Unit) =
        ([], Except.ok ()) := by
  intro be k raws
  refine ⟨?_, ?_, ?_⟩
  · simp [fill, wordsOfHost]
  · simp [fillU8]
  · simp [tryFill, wordsOfHost]

/-- C8: `FromEntropy::from_entropy` consults the fallible seeding
primitive exactly once (its result depends only on attempt 0 of the
seeding oracle, so no retry is performed), unwraps a successful
construction, and converts any reported failure into a fatal abort with
no error channel (`none`). -/
theorem from_entropy_single_attempt :
    ∀ (R ε : Type) (a b : Nat → Except ε R),
      (a 0 = b 0 → fromEntropy a = fromEntropy b) ∧
      (∀ r : R, a 0 = .ok r → fromEntropy a = some r) ∧
      (∀ e : ε, a 0 = .error e → fromEntropy a = none) := by
  intro R ε a b
  refine ⟨fun h => ?_, fun r h => ?_, fun e h => ?_⟩
  · unfold fromEntropy; rw [h]
  · unfold fromEntropy; rw [h]
  · unfold fromEntropy; rw [h]

/-- Witness for `from_entropy_single_attempt` on constant oracles. -/
theorem from_entropy_single_attempt_witness :
    fromEntropy (fun _ => (Except.ok 7 : Except Unit Nat)) =
        fromEntropy (fun i => if i = 0 then Except.ok 7 else Except.error ()) ∧
    fromEntropy (fun _ => (Except.ok 7 : Except Unit Nat)) = some 7 ∧
    fromEntropy (fun _ => (Except.error () : Except Unit Nat)) = none := by
  have h1 := from_entropy_single_attempt Nat Unit (fun _ => Except.ok 7)
    (fun i => if i = 0 then Except.ok 7 else Except.error ())
  have h2 := from_entropy_single_attempt Nat Unit (fun _ => Except.error ())
    (fun _ => Except.error ())
  exact ⟨h1.1 (by simp), h1.2.1 7 rfl, h2.2.2 () rfl⟩

/-- C10: `Rng::try_fill` is not atomic on error — when the underlying
`try_fill_bytes` reports an error after writing a byte prefix, exactly
that error is propagated, the `to_le` normalization is skipped, and the
destination keeps the partially overwritten bytes decoded in native
(host) byte order; at a concrete big-endian input the leftover value is
neither the original element nor its byte-order-converted form. -/
theorem try_fill_not_atomic :
    (∀ (ε : Type) (be : Bool) (k : Nat) (dest0 written : List Nat) (e : ε),
      tryFill be k dest0 written (Except.error e) =
        (wordsOfHost be k dest0.length
          (written.map (· % 256) ++
            ((dest0.map (hostBytes be k)).flatten).drop written.length),
         Except.error e)) ∧
    tryFill true 2 [258] [170] (Except.error () : Except Unit Unit) =
      ([43522], Except.error ()) ∧
    (43522 : Nat) ≠ 258 ∧
    toLEWord true 2 43522 = 682 ∧ (682 : Nat) ≠ 43522 := by
  refine ⟨fun ε be k dest0 written e => rfl, ?_, by decide, by decide, by decide⟩
  rfl

/-- The canonical little-endian reading of a byte buffer as `n` elements
of width `k`: the portable logical values promised by the fill
contract. -/
def leWords (k n : Nat) (bytes : List Nat) : List Nat :=
  (List.range n).map (fun i => valLE ((bytes.drop (i * k)).take k))

lemma bytesLE_valLE : ∀ l : List Nat, (∀ b ∈ l, b < 256) →
    bytesLE l.length (valLE l) = l := by
  intro l
  induction l with
  | nil => intro _; rfl
  | cons a t ih =>
      intro h
      have ha : a < 256 := h a (by simp)
      simp only [List.length_cons, bytesLE, valLE]
      have h1 : (a + 256 * valLE t) % 256 = a := by omega
      have h2 : (a + 256 * valLE t) / 256 = valLE t := by omega
      rw [h1, h2, ih (fun b hb => h b (List.mem_cons_of_mem _ hb))]

lemma swapBytes_valBE (l : List Nat) (h : ∀ b ∈ l, b < 256) :
    swapBytes l.length (valBE l) = valLE l := by
  unfold swapBytes valBE
  have hrev : bytesLE l.reverse.length (valLE l.reverse) = l.reverse :=
    bytesLE_valLE l.reverse (fun b hb => h b (List.mem_reverse.mp hb))
  rw [List.length_reverse] at hrev
  rw [hrev, List.reverse_reverse]

lemma toLEWord_hostVal (be : Bool) (c : List Nat) (h : ∀ b ∈ c, b < 256) :
    toLEWord be c.length (hostVal be c) = valLE c := by
  cases be
  · simp [toLEWord, hostVal]
  · simpa [toLEWord, hostVal] using swapBytes_valBE c h

lemma fill_fst_eq_leWords (be : Bool) (k n : Nat) (raws : List Nat)
    (hk : 0 < k) (hlen : n * k ≤ raws.length) :
    (fill be k n raws).1 = leWords k n ((raws.take (n * k)).map (· % 256)) := by
  unfold fill leWords wordsOfHost
  rw [List.map_map]
  apply List.map_congr_left
  intro i hi
  rw [List.mem_range] at hi
  set bytes := (raws.take (n * k)).map (· % 256) with hbytes
  have hblen : bytes.length = n * k := by
    simp [hbytes, List.length_take]
    omega
  have hik : i * k + k ≤ n * k := by
    have h3 : (i + 1) * k ≤ n * k := Nat.mul_le_mul_right k (by omega)
    rwa [Nat.succ_mul] at h3
  have hck : ((bytes.drop (i * k)).take k).length = k := by
    simp [List.length_take, List.length_drop]
    omega
  have hmem : ∀ b ∈ (bytes.drop (i * k)).take k, b < 256 := by
    intro b hb
    have hb2 : b ∈ bytes := List.drop_subset _ _ (List.take_subset _ _ hb)
    rw [hbytes, List.mem_map] at hb2
    obtain ⟨x, _, hx⟩ := hb2
    omega
  calc toLEWord be k (hostVal be ((bytes.drop (i * k)).take k))
      = toLEWord be ((bytes.drop (i * k)).take k).length
          (hostVal be ((bytes.drop (i * k)).take k)) := by rw [hck]
    _ = valLE ((bytes.drop (i * k)).take k) := toLEWord_hostVal be _ hmem

lemma leWords_len_one (bytes : List Nat) : leWords 1 bytes.length bytes = bytes := by
  unfold leWords
  apply List.ext_getElem
  · simp
  · intro i h1 h2
    simp only [List.getElem_map, List.getElem_range, Nat.mul_one]
    have hi : i < bytes.length := by simpa using h2
    rw [List.take_one_drop_eq_of_lt_length hi]
    simp [valLE]

/-- C4: the fill contract of `Rng::fill` — on a destination of `n`
elements of a `k`-byte integer type it consumes exactly `n·k` bytes from
the bit-source, the resulting logical element values are the canonical
little-endian reading of those bytes (hence identical on little- and
big-endian hosts), and a raw `u8` destination, which skips the `to_le`
conversion, produces exactly the same bytes as the general path at
`k = 1`. -/
theorem fill_contract :
    ∀ (be : Bool) (k n : Nat) (raws : List Nat), 0 < k → n * k ≤ raws.length →
      (fill be k n raws).2 = raws.drop (n * k) ∧
      (fill be k n raws).1 = leWords k n ((raws.take (n * k)).map (· % 256)) ∧
      (fill be k n raws).1 = (fill false k n raws).1 ∧
      fillU8 be n raws = fill be 1 n raws := by
  intro be k n raws hk hlen
  refine ⟨rfl, fill_fst_eq_leWords be k n raws hk hlen, ?_, ?_⟩
  · rw [fill_fst_eq_leWords be k n raws hk hlen,
        fill_fst_eq_leWords false k n raws hk hlen]
  · have hn1 : n * 1 ≤ raws.length := by
      have := Nat.mul_le_mul_left n hk
      omega
    have hfst : (fill be 1 n raws).1
        = leWords 1 n ((raws.take (n * 1)).map (· % 256)) :=
      fill_fst_eq_leWords be 1 n raws (by omega) hn1
    rw [Nat.mul_one] at hfst
    set b := (raws.take n).map (· % 256) with hb
    have hblen : b.length = n := by
      simp [hb, List.length_take]
      omega
    refine Prod.ext ?_ ?_
    · show b = (fill be 1 n raws).1
      rw [hfst, ← hblen]
      exact (leWords_len_one b).symm
    · show raws.drop n = (fill be 1 n raws).2
      simp [fill, Nat.mul_one]

/-- Witness for `fill_contract` on a two-element 2-byte destination. -/
theorem fill_contract_witness :
    (fill true 2 2 [1, 2, 3, 4, 5] ).2 = [5] ∧
    (fill true 2 2 [1, 2, 3, 4, 5]).1 = leWords 2 2 [1, 2, 3, 4] ∧
    (fill true 2 2 [1, 2, 3, 4, 5]).1 = (fill false 2 2 [1, 2, 3, 4, 5]).1 ∧
    fillU8 true 2 [1, 2, 3, 4, 5] = fill true 1 2 [1, 2, 3, 4, 5] := by
  have h := fill_contract true 2 2 [1, 2, 3, 4, 5] (by decide) (by decide)
  refine ⟨h.1, ?_, h.2.2.1, h.2.2.2⟩
  have h2 := h.2.1
  simpa using h2

lemma filter_mod_card (s m j : Nat) (hj : j < s) :
    ((Finset.range (s * m)).filter (fun r => r % s = j)).card = m := by
  have hs : 0 < s := by omega
  have himg : (Finset.range m).image (fun q => s * q + j)
      = (Finset.range (s * m)).filter (fun r => r % s = j) := by
    ext r
    simp only [Finset.mem_image, Finset.mem_filter, Finset.mem_range]
    constructor
    · rintro ⟨q, hq, rfl⟩
      refine ⟨?_, ?_⟩
      · have h2 : s * (q + 1) ≤ s * m := Nat.mul_le_mul_left s (by omega)
        have h3 : s * (q + 1) = s * q + s := by ring
        omega
      · rw [Nat.mul_add_mod]
        exact Nat.mod_eq_of_lt hj
    · rintro ⟨hr, hmod⟩
      refine ⟨r / s, ?_, ?_⟩
      · rw [Nat.div_lt_iff_lt_mul hs, Nat.mul_comm]
        omega
      · have hdm := Nat.div_add_mod r s
        omega
  have hinj : Function.Injective (fun q => s * q + j) := by
    intro a b hab
    simp only at hab
    have h4 : s * a = s * b := by omega
    exact Nat.eq_of_mul_eq_mul_left hs h4
  rw [← himg, Finset.card_image_of_injective _ hinj, Finset.card_range]

lemma sampleSingle_single_raw (w : Nat) {low high : Int} (hlt : low < high)
    (v : Int) (r : Nat) (hr : r < 2 ^ w) :
    sampleSingle w low high [r] = .ok v [] ↔
      r < zone w low high ∧ low + ((r % span low high : Nat) : Int) = v := by
  have hmod : r % 2 ^ w = r := Nat.mod_eq_of_lt hr
  rw [sampleSingle, if_neg (not_le.mpr hlt)]
  simp only [sampleLoop, hmod]
  by_cases hz : r < zone w low high
  · rw [if_pos hz]
    simp [hz]
  · rw [if_neg hz]
    simp [hz]

/-- C1: the range sampler follows the bias-elimination algorithm — span,
acceptance zone, redraw, reduce modulo the span and add `low` — and is
exactly uniform: for every target `v` in `[low, high)`, the number of
raw `w`-bit draws on which one step of the sampler returns `v` is
`2^w / span`, the same for every `v` (no modulo bias toward the low
end). -/
theorem gen_range_unbiased :
    ∀ (w : Nat) (low high v : Int), low < high → span low high ≤ 2 ^ w →
      low ≤ v → v < high →
      ((Finset.range (2 ^ w)).filter
          (fun r => sampleSingle w low high [r] = GenResult.ok v [])).card
        = 2 ^ w / span low high := by
  intro w low high v hlt hspan hlv hvh
  have hs : 0 < span low high := span_pos hlt
  have hj : (v - low).toNat < span low high := by unfold span; omega
  have hdm := Nat.div_add_mod (2 ^ w) (span low high)
  have hzone : zone w low high
      = span low high * (2 ^ w / span low high) := by
    unfold zone; omega
  have hsq : span low high * (2 ^ w / span low high) ≤ 2 ^ w := by omega
  have hset : (Finset.range (2 ^ w)).filter
        (fun r => sampleSingle w low high [r] = GenResult.ok v [])
      = (Finset.range (span low high * (2 ^ w / span low high))).filter
          (fun r => r % span low high = (v - low).toNat) := by
    ext r
    simp only [Finset.mem_filter, Finset.mem_range]
    constructor
    · rintro ⟨hr, hok⟩
      rw [sampleSingle_single_raw w hlt v r hr] at hok
      obtain ⟨hrz, hveq⟩ := hok
      rw [hzone] at hrz
      exact ⟨hrz, by omega⟩
    · rintro ⟨hr, hmodj⟩
      have hr2 : r < 2 ^ w := lt_of_lt_of_le hr hsq
      refine ⟨hr2, ?_⟩
      rw [sampleSingle_single_raw w hlt v r hr2]
      exact ⟨by rw [hzone]; exact hr, by omega⟩
  rw [hset, filter_mod_card _ _ _ hj]

/-- Witness for `gen_range_unbiased`: over the 3-bit source, the range
`[0, 3)` and target 1. -/
theorem gen_range_unbiased_witness :
    ((Finset.range (2 ^ 3)).filter
        (fun r => sampleSingle 3 0 3 [r] = GenResult.ok 1 [])).card
      = 2 ^ 3 / span 0 3 :=
  gen_range_unbiased 3 0 3 1 (by decide) (by decide) (by decide) (by decide)

/-- C9 counterexample: a 33-element array is not a valid fill
destination — src/lib.rs provides `AsByteSliceMut` only for the
enumerated array lengths, and 33 is not among them. -/
theorem array_len_33_unsupported : arrayLenSupported 33 = false := by decide

/-- C9 amended: fixed-size arrays are valid fill destinations for the
lengths the macros enumerate — every `n ≤ 32` and the powers of two 64,
128, 256, 512, 1024, 2048, 4096 — and for each such length, over every
element width, the destination satisfies the fill contract (exact
consumption and byte-order-independent logical values). -/
theorem array_fill_supported_lengths :
    ∀ n : Nat, (n ≤ 32 ∨ n ∈ ([64, 128, 256, 512, 1024, 2048, 4096] : List Nat)) →
      arrayLenSupported n = true ∧
      ∀ (be : Bool) (k : Nat) (raws : List Nat), 0 < k → n * k ≤ raws.length →
        (fill be k n raws).2 = raws.drop (n * k) ∧
        (fill be k n raws).1 = (fill false k n raws).1 := by
  intro n hn
  constructor
  · unfold arrayLenSupported supportedArrayLengths
    simp only [decide_eq_true_eq, List.mem_append, List.mem_range]
    rcases hn with h | h
    · exact Or.inl (by omega)
    · exact Or.inr h
  · intro be k raws hk hlen
    refine ⟨rfl, ?_⟩
    rw [fill_fst_eq_leWords be k n raws hk hlen,
        fill_fst_eq_leWords false k n raws hk hlen]

/-- Witness for `array_fill_supported_lengths` at the supported length
64 with a one-byte element type. -/
theorem array_fill_supported_lengths_witness :
    arrayLenSupported 64 = true ∧
    ((fill true 1 64 (List.range 64)).2 = (List.range 64).drop (64 * 1) ∧
     (fill true 1 64 (List.range 64)).1 = (fill false 1 64 (List.range 64)).1) :=
  ⟨(array_fill_supported_lengths 64 (Or.inr (by decide))).1,
   (array_fill_supported_lengths 64 (Or.inr (by decide))).2 true 1
     (List.range 64) (by decide) (by decide)⟩

end Rand
